import Mathlib

/-!
Verification of the semantic text splitter (`semchunk.go`, `utils.go`).

Go strings are modelled as `List Char` (`Str`); indexing and slicing are by
characters rather than bytes, which is equivalent for the operations used here
because every split point produced by the source falls on a rune boundary.
Byte lengths (used by the source for `len(...)` comparisons on delimiter
strings) are recovered through `utf8Size`/`byteLen`.

Preserve patterns are modelled as literal substrings, exactly the patterns
produced by `WithPreservePatterns` (which applies `regexp.QuoteMeta` to each
supplied string, so the compiled regexp matches the literal string only).
The `urlRegex` added by `WithPreserveURLs` is not modelled.

Fallible Go operations (out-of-range slice indexing) are modelled with
`Option`/`Except`; the unbounded recursion of `split` is modelled with a fuel
parameter, `fuelOut` marking recursion deeper than the length of the input,
which a terminating run of the source can never reach because every recursive
call is on a fragment of the currently processed span.
-/

namespace Semchunk

/-- A Go string, modelled as its list of runes. -/
abbrev Str := List Char

/-- Convert a Lean string literal to the model type. -/
def str (s : String) : Str := s.toList

/-- Number of bytes of the UTF-8 encoding of a rune (Go `len` counts bytes). -/
def utf8Size (c : Char) : Nat :=
  if c.val < 0x80 then 1 else if c.val < 0x800 then 2
  else if c.val < 0x10000 then 3 else 4

/-- Byte length of a string, Go `len(s)`. -/
def byteLen (s : Str) : Nat := (s.map utf8Size).sum

/-- Go `text[a:b]` (here with rune indices). -/
def sliceL (text : Str) (a b : Nat) : Str := (text.drop a).take (b - a)

/-- Index of the leftmost occurrence of `pat`, `strings.Index` semantics. -/
def firstOcc (pat : Str) : Str → Option Nat
  | [] => if pat.isEmpty then some 0 else none
  | c :: rest =>
    if pat.isPrefixOf (c :: rest) then some 0 else (firstOcc pat rest).map (· + 1)

/-- Go `strings.Contains(s, pat)`. -/
def containsSub (pat s : Str) : Bool := (firstOcc pat s).isSome

/-- Worker for `strings.Split` with a non-empty separator: scans left to
right, cutting at each leftmost non-overlapping occurrence of `sep`.
`acc` holds the runes of the current field in reverse; `skip` is the number
of separator characters still to be consumed after a cut (structural
recursion on the scanned suffix). -/
def splitSepAux (sep : Str) : Str → Str → Nat → List Str
  | [], acc, _ => [acc.reverse]
  | c :: rest, acc, skip =>
    match skip with
    | k + 1 => splitSepAux sep rest acc k
    | 0 =>
      if sep.isPrefixOf (c :: rest) then
        acc.reverse :: splitSepAux sep rest [] (sep.length - 1)
      else
        splitSepAux sep rest (c :: acc) 0

/-- Go `strings.Split(s, sep)`: empty separator splits into runes. -/
def goSplit (sep s : Str) : List Str :=
  if sep.isEmpty then s.map (fun c => [c]) else splitSepAux sep s [] 0

/-- Worker for `maximalRuns`; `cur` holds the runes of the current run in
reverse. -/
def runsAux (p : Char → Bool) : Str → Str → List Str
  | [], cur => if cur.isEmpty then [] else [cur.reverse]
  | c :: rest, cur =>
    if p c then runsAux p rest (c :: cur)
    else if cur.isEmpty then runsAux p rest []
    else cur.reverse :: runsAux p rest []

/-- Maximal runs of characters satisfying `p`: the matches of the regexp
`[class]+` as returned by `FindAllString(text, -1)`. -/
def maximalRuns (p : Char → Bool) (s : Str) : List Str := runsAux p s []

/-- Source `longestSplitter`: first run of strictly maximal byte length. -/
def longestSplitter : List Str → Str
  | [] => []
  | x :: xs => xs.foldl (fun best r => if byteLen r > byteLen best then r else best) x

/-- The character class of the RE2 Perl class `\s`, used by `[\s]+`-style
regexps in the source (`whitespaceRegex`, and the `(\s)` capture). -/
def goRegexSpace (c : Char) : Bool :=
  c == '\t' || c == '\n' || c == '\x0c' || c == '\r' || c == ' '

/-- Go `unicode.IsSpace` (Latin-1 rules plus the Unicode White_Space
code points), used by `ContainsSpace` in `utils.go`. -/
def unicodeIsSpace (c : Char) : Bool :=
  let n := c.toNat
  n == 0x9 || n == 0xa || n == 0xb || n == 0xc || n == 0xd || n == 0x20 ||
  n == 0x85 || n == 0xa0 || n == 0x1680 ||
  decide (0x2000 ≤ n ∧ n ≤ 0x200a) ||
  n == 0x2028 || n == 0x2029 || n == 0x202f || n == 0x205f || n == 0x3000

/-- `utils.go` `ContainsSpace`. -/
def ContainsSpace (s : Str) : Bool := s.any unicodeIsSpace

/-- Source table `fullWidthSentenceTerminators`. -/
def fullWidthSentenceTerminators : List Str := [str "。", str "？", str "！"]

/-- Source table `fullWidthClauseSparators`. -/
def fullWidthClauseSparators : List Str := [str "，", str "；", str "、", str "：", str "－"]

/-- Source table `sentenceTerminators`. -/
def sentenceTerminators : List Str := [str ".", str "?", str "!"]

/-- Source table `clauseSeparators`. -/
def clauseSeparators : List Str := [str "—", str "…", str ",", str ";", str ":"]

/-- Source `nonWhitespaceSemanticSplitters` (half-width, priority order). -/
def nonWhitespaceSemanticSplitters : List Str := sentenceTerminators ++ clauseSeparators

/-- Source `fullWidthNonWhitespaceSemanticSpliters` (priority order). -/
def fullWidthNonWhitespaceSemanticSpliters : List Str :=
  fullWidthSentenceTerminators ++ fullWidthClauseSparators

/-- First splitter of the list contained in `text` — the
`for _, splitter := range ... { if strings.Contains(text, splitter) ... }`
loops of `innerSplit`. -/
def firstContained (splitters : List Str) (text : Str) : Option Str :=
  splitters.find? (fun sp => containsSub sp text)

/-- `FindAllStringIndex(text, -1)` for the literal pattern `pat`
(`WithPreservePatterns` compiles `regexp.QuoteMeta(pattern)`, so the regexp
matches exactly the literal string): leftmost non-overlapping occurrences as
`(start, end)` index pairs; `i` is the index of the start of the scanned
suffix. An empty pattern yields no matches. -/
def findAllOccAux (pat : Str) : Str → Nat → Nat → List (Nat × Nat)
  | [], _, _ => []
  | c :: rest, i, skip =>
    match skip with
    | k + 1 => findAllOccAux pat rest (i + 1) k
    | 0 =>
      if ¬pat.isEmpty ∧ pat.isPrefixOf (c :: rest) then
        (i, i + pat.length) :: findAllOccAux pat rest (i + 1) (pat.length - 1)
      else
        findAllOccAux pat rest (i + 1) 0

/-- All matches of the literal pattern `pat` starting from index `i`. -/
def findAllOcc (pat s : Str) (i : Nat) : List (Nat × Nat) := findAllOccAux pat s i 0

/-- The pattern-preserving split loop of `innerSplit` (lines 138–157): for
each match, emit the text before it (if non-empty) and the match itself, then
the remaining text after the last match (if non-empty). -/
def preserveParts (text : Str) : Nat → List (Nat × Nat) → List Str
  | lastIndex, [] =>
    if lastIndex < text.length then [text.drop lastIndex] else []
  | lastIndex, (a, b) :: ms =>
    (if a > lastIndex then [sliceL text lastIndex a] else []) ++
      (sliceL text a b :: preserveParts text b ms)

/-- The part-building loop of `LookbehindSplit` in `utils.go`: each part is
the text before the match with the preceder re-attached; the final part is
the remaining text (always appended, even when empty). -/
def lookbehindParts (text p : Str) : Nat → List (Nat × Nat) → List Str
  | lastIndex, [] => [text.drop lastIndex]
  | lastIndex, (a, b) :: ms =>
    (sliceL text lastIndex a ++ p) :: lookbehindParts text p b ms

/-- `utils.go` `LookbehindSplit(text, precededBy, splitter)`. -/
def LookbehindSplit (text p s : Str) : List Str :=
  lookbehindParts text p 0 (findAllOcc (p ++ s) text 0)

/-- Leftmost match of the regexp `preceder(\s)` (the lookbehind refinement of
`innerSplit`): returns the captured whitespace character of the first position
where `p` occurs immediately followed by an RE2 `\s` character. -/
def findPreSpace (p : Str) : Str → Option Char
  | [] => none
  | c :: rest =>
    if p.isPrefixOf (c :: rest) then
      match (c :: rest).drop p.length with
      | w :: _ => if goRegexSpace w then some w else findPreSpace p rest
      | [] => findPreSpace p rest
    else findPreSpace p rest

/-- The `for _, preceder := range nonWhitespaceSemanticSplitters` loop of the
whitespace-refinement step: first preceder with a `preceder(\s)` match,
together with the captured whitespace character. -/
def findPreceder (text : Str) : Option (Str × Char) :=
  nonWhitespaceSemanticSplitters.findSome? fun p =>
    (findPreSpace p text).map (fun w => (p, w))

/-- Source `innerSplit(text, preservePatterns)`: returns
`(splitter, splitterIsWhitespace, splits)`. Branches in source order:
newline runs, tab runs, preserve patterns, full-width terminators,
whitespace runs (with the lookbehind refinement when the chosen run is one
byte wide), half-width terminators, character fallback. -/
def innerSplit (patterns : List Str) (text : Str) : Str × Bool × List Str :=
  if (containsSub (str "\n") text || containsSub (str "\r") text) &&
      !(maximalRuns (fun c => c == '\n' || c == '\r') text).isEmpty then
    (longestSplitter (maximalRuns (fun c => c == '\n' || c == '\r') text), true,
      goSplit (longestSplitter (maximalRuns (fun c => c == '\n' || c == '\r') text)) text)
  else if containsSub (str "\t") text &&
      !(maximalRuns (fun c => c == '\t') text).isEmpty then
    (longestSplitter (maximalRuns (fun c => c == '\t') text), true,
      goSplit (longestSplitter (maximalRuns (fun c => c == '\t') text)) text)
  else
    match patterns.find? (fun p => !(findAllOcc p text 0).isEmpty) with
    | some p => ([], true, preserveParts text 0 (findAllOcc p text 0))
    | none =>
      match firstContained fullWidthNonWhitespaceSemanticSpliters text with
      | some sp => (sp, false, goSplit sp text)
      | none =>
        if ContainsSpace text && !(maximalRuns goRegexSpace text).isEmpty then
          if byteLen (longestSplitter (maximalRuns goRegexSpace text)) == 1 then
            match findPreceder text with
            | some pw => ([pw.2], true, LookbehindSplit text pw.1 [pw.2])
            | none => (longestSplitter (maximalRuns goRegexSpace text), true,
                goSplit (longestSplitter (maximalRuns goRegexSpace text)) text)
          else (longestSplitter (maximalRuns goRegexSpace text), true,
            goSplit (longestSplitter (maximalRuns goRegexSpace text)) text)
        else
          match firstContained nonWhitespaceSemanticSplitters text with
          | some sp => (sp, false, goSplit sp text)
          | none => ([], true, goSplit [] text)

/-- Go `strings.Join(l, sep)`. -/
def goJoin (sep : Str) : List Str → Str
  | [] => []
  | [x] => x
  | x :: y :: rest => x ++ sep ++ goJoin sep (y :: rest)

/-- Source `estimateSize`. -/
def estimateSize (size splitSize splitterSize : Int) (appendSplitter : Bool) : Int :=
  size + splitSize + (if appendSplitter then splitterSize else 0)

/-- The splitter configuration: the fields of `TextSplitter`, with the
preserve patterns as the literal strings compiled by `WithPreservePatterns`. -/
structure Cfg where
  chunkSize : Int
  overlap : Int
  count : Str → Int
  patterns : List Str

/-- The overlap eviction loop of `mergeSplits` (lines 231–238): pops the
front of `toMerge` while `size > overlap`, or the prospective addition of the
fragment of size `l` still overflows and `size > 0`. `none` models the Go
panics: `splitIds[0]` on an empty `splitIds`, the out-of-range index
`splitSizes[splitIds[0]]`, and `toMerge[1:]` on an empty `toMerge`. -/
def evict (splitSizes : List Int) (splitterSize overlap chunkSize l : Int) :
    List Str → List Nat → Int → Option (List Str × List Nat × Int)
  | toMerge, splitIds, size =>
    if size > overlap ∨
        (estimateSize size l splitterSize (!toMerge.isEmpty) > chunkSize ∧ size > 0) then
      match splitIds with
      | [] => none
      | id0 :: idsRest =>
        match splitSizes[id0]? with
        | none => none
        | some s0 =>
          let size1 := size - s0
          let size2 := if toMerge.length > 1 then size1 - splitterSize else size1
          match toMerge with
          | [] => none
          | _ :: tmRest =>
            evict splitSizes splitterSize overlap chunkSize l tmRest idsRest size2
    else
      some (toMerge, splitIds, size)

/-- The two emission points of `mergeSplits`: join the accumulator with the
splitter and append it to `merges` only when the joined string is non-empty
(`if len(merged) > 0`). -/
def emitNonEmpty (splitter : Str) (merges toMerge : List Str) : List Str :=
  let merged := goJoin splitter toMerge
  if merged.isEmpty then merges else merges ++ [merged]

/-- The body of the `if estimateSize(...) > chunkSize` block of the
`mergeSplits` loop (lines 223–243): emit the accumulator, then either run the
overlap eviction (overlap > 0) or clear the accumulator; without overflow the
state is unchanged. Returns the updated `(merges, toMerge, splitIds, size)`,
`none` on a Go panic. -/
def overflowStep (splitSizes : List Int) (splitter : Str)
    (splitterSize chunkSize overlap : Int) (merges toMerge : List Str)
    (splitIds : List Nat) (size l : Int) :
    Option (List Str × List Str × List Nat × Int) :=
  if estimateSize size l splitterSize (!toMerge.isEmpty) > chunkSize then
    if overlap > 0 then
      match evict splitSizes splitterSize overlap chunkSize l toMerge splitIds size with
      | none => none
      | some (tm1, ids1, size1) =>
        some (emitNonEmpty splitter merges toMerge, tm1, ids1, size1)
    else
      some (emitNonEmpty splitter merges toMerge, [], splitIds, 0)
  else
    some (merges, toMerge, splitIds, size)

/-- The main loop of `mergeSplits`, iterating over `splits` with index `i`
and state `(merges, toMerge, splitIds, size)`; after the loop, the remaining
accumulator is joined and emitted when non-empty. `none` models a Go panic. -/
def mergeGo (splitSizes : List Int) (splitter : Str)
    (splitterSize chunkSize overlap : Int) :
    List Str → Nat → List Str → List Str → List Nat → Int → Option (List Str)
  | [], _, merges, toMerge, _, _ =>
    if toMerge.isEmpty then some merges
    else some (emitNonEmpty splitter merges toMerge)
  | sp :: rest, i, merges, toMerge, splitIds, size =>
    match splitSizes[i]? with
    | none => none
    | some l =>
      match overflowStep splitSizes splitter splitterSize chunkSize overlap
          merges toMerge splitIds size l with
      | none => none
      | some (merges2, tm2, ids2, size2) =>
        mergeGo splitSizes splitter splitterSize chunkSize overlap rest (i + 1)
          merges2 (tm2 ++ [sp]) ids2
          (if (tm2 ++ [sp]).length > 1 then size2 + l + splitterSize else size2 + l)

/-- Source `mergeSplits(splits, splitSizes, splitIds, splitter, chunkSize)`.
`none` models a Go panic (index out of range). -/
def mergeSplits (cfg : Cfg) (splits : List Str) (splitSizes : List Int)
    (splitIds : List Nat) (splitter : Str) (chunkSize : Int) : Option (List Str) :=
  mergeGo splitSizes splitter (cfg.count splitter) chunkSize cfg.overlap
    splits 0 [] [] splitIds 0

/-- How a modelled run of `split` can fail: `panicked` models a Go runtime
panic (index out of range), `fuelOut` that the modelled recursion-depth
budget was exhausted (the Go code would recurse deeper, i.e. diverge when the
budget exceeds the input length). -/
inductive SErr where
  | panicked : SErr
  | fuelOut : SErr
deriving DecidableEq

/-- Flushing the buffered good run through the merger (`if len(goodSplits) >
0` followed by `mergeSplits` and `rets = append(rets, merges...)`). -/
def flushGood (mergeFn : List Str → List Int → List Nat → Option (List Str))
    (rets good : List Str) (goodSizes : List Int) (goodIds : List Nat) :
    Except SErr (List Str) :=
  if good.isEmpty then .ok rets
  else
    match mergeFn good goodSizes goodIds with
    | none => .error .panicked
    | some ms => .ok (rets ++ ms)

/-- The fragment loop of `split` (lines 271–295): fragments with token count
below `chunkSize` are buffered (with size and original index); at an
over-budget fragment the buffer is flushed through `mergeFn` and the fragment
is recursed into via `recFn`; a final flush follows the loop. -/
def splitLoop (count : Str → Int) (chunkSize : Int)
    (mergeFn : List Str → List Int → List Nat → Option (List Str))
    (recFn : Str → Except SErr (List Str)) :
    List Str → Nat → List Str → List Str → List Int → List Nat →
    Except SErr (List Str)
  | [], _, rets, good, goodSizes, goodIds =>
    flushGood mergeFn rets good goodSizes goodIds
  | sp :: rest, i, rets, good, goodSizes, goodIds =>
    let l := count sp
    if l < chunkSize then
      splitLoop count chunkSize mergeFn recFn rest (i + 1) rets
        (good ++ [sp]) (goodSizes ++ [l]) (goodIds ++ [i])
    else
      match flushGood mergeFn rets good goodSizes goodIds with
      | .error e => .error e
      | .ok rets1 =>
        match recFn sp with
        | .error e => .error e
        | .ok sub =>
          splitLoop count chunkSize mergeFn recFn rest (i + 1) (rets1 ++ sub) [] [] []

/-- Source `split(text, chunkSize, recursionDepth)`, with an explicit fuel
bounding the recursion depth. -/
def splitFuel (cfg : Cfg) : Nat → Str → Int → Except SErr (List Str)
  | 0, _, _ => .error .fuelOut
  | n + 1, text, chunkSize =>
    let r := innerSplit cfg.patterns text
    splitLoop cfg.count chunkSize
      (fun g gs gi => mergeSplits cfg g gs gi r.1 chunkSize)
      (fun t => splitFuel cfg n t chunkSize)
      r.2.2 0 [] [] [] []

/-- Source `Split(text)`. The fuel `text.length + 1` covers every terminating
run of the source because each recursive call of `split` is on a strictly
shorter span whenever the recursion terminates at all. -/
def Split (cfg : Cfg) (text : Str) : Except SErr (List Str) :=
  splitFuel cfg (text.length + 1) text cfg.chunkSize

/-- The configuration fields resolved by `NewTextSplitter` (the token counter
and options are stored unchanged and are not part of validation). -/
structure SplitterCore where
  chunkSize : Int
  overlap : Int
deriving DecidableEq

/-- Go `int(q)` for a float value modelled as a rational: truncation toward
zero. -/
def ratTrunc (q : ℚ) : Int := if 0 ≤ q then ⌊q⌋ else -⌊-q⌋

/-- `NewTextSplitter` instantiated at `K = int`. The source declares
`overlapInt, ok := any(overlap).(int)` inside the `else if`, which shadows
the outer `overlapInt`; the outer variable, which is what the returned
struct stores, is never assigned in this branch and keeps its zero value. -/
def newTextSplitterInt (chunkSize overlap : Int) : Except String SplitterCore :=
  if overlap < 0 ∨ overlap > chunkSize then
    .error "overlap must be between 0 and chunkSize"
  else
    .ok ⟨chunkSize, 0⟩

/-- `NewTextSplitter` instantiated at `K = float32`, the float value modelled
as a rational (the comparisons with 0 and 1 are exact in float32; the
rounding of the float32 product `overlap * float32(chunkSize)` is not
modelled). -/
def newTextSplitterFloat (chunkSize : Int) (overlap : ℚ) : Except String SplitterCore :=
  if overlap < 0 ∨ overlap > 1 then
    .error "overlap must be between 0 and 1"
  else
    .ok ⟨chunkSize, ratTrunc (overlap * chunkSize)⟩

/-- A token counter that counts one token per rune, `len`-style; used by the
concrete scenarios below. -/
def charCount : Str → Int := fun s => (s.length : Int)

/-- Configuration for the merge-with-overlap scenario of the spec (chunk size
11, overlap 5, per-rune token counter). -/
def cfgMergeDemo : Cfg := ⟨11, 5, charCount, []⟩

/-- A validly constructed splitter with chunk size 5 and overlap 2 (reachable
as `NewTextSplitter(5, float32(0.5), counter)`), per-rune token counter, no
preserve patterns. -/
def cfgOverlap2 : Cfg := ⟨5, 2, charCount, []⟩

/-- A validly constructed splitter with chunk size 2, overlap 0, per-rune
token counter and the literal preserve pattern "abcd" (reachable as
`NewTextSplitter(2, 0, counter, WithPreservePatterns("abcd"))`). -/
def cfgPreserve : Cfg := ⟨2, 0, charCount, [str "abcd"]⟩

/-- A validly constructed splitter with chunk size 5, overlap 0, per-rune
token counter, no preserve patterns. -/
def cfgPlain : Cfg := ⟨5, 0, charCount, []⟩

/-- The segmentation invariant of a match list relative to `text`: starting
from index `last`, the matches are ordered, non-overlapping, in bounds, of
the pattern's length, and their slices equal the pattern. This is what
`findAllOcc` guarantees. -/
def MatchChain (text pat : Str) : Nat → List (Nat × Nat) → Prop
  | _, [] => True
  | last, (a, b) :: ms =>
    last ≤ a ∧ b = a + pat.length ∧ b ≤ text.length ∧
      sliceL text a b = pat ∧ MatchChain text pat b ms

/-! ## Helper lemmas -/

theorem splitFuel_cfgPreserve_step (n : Nat) :
    splitFuel cfgPreserve (n + 1) (str "abcd") 2 =
      match splitFuel cfgPreserve n (str "abcd") 2 with
      | .error e => .error e
      | .ok sub => .ok sub := rfl

theorem innerSplit_nil (patterns : List Str) : innerSplit patterns [] = ([], true, []) := by
  have hfind : patterns.find? (fun p => !(findAllOcc p ([] : Str) 0).isEmpty) = none :=
    List.find?_eq_none.mpr (fun p _ => by simp [findAllOcc, findAllOccAux])
  rw [innerSplit, hfind]
  rfl

theorem prefix_decomp {l s : Str} (h : l.isPrefixOf s = true) :
    s = l ++ s.drop l.length := by
  induction l generalizing s with
  | nil => simp
  | cons a as ih =>
    cases s with
    | nil => simp [List.isPrefixOf] at h
    | cons b bs =>
      simp only [List.isPrefixOf, Bool.and_eq_true, beq_iff_eq] at h
      obtain ⟨rfl, h2⟩ := h
      simpa using ih h2

theorem prefix_length_le {l s : Str} (h : l.isPrefixOf s = true) :
    l.length ≤ s.length := by
  have := prefix_decomp h
  have hlen := congrArg List.length this
  simp only [List.length_append] at hlen
  omega

theorem goJoin_cons (sep x : Str) (l : List Str) (h : l ≠ []) :
    goJoin sep (x :: l) = x ++ sep ++ goJoin sep l := by
  cases l with
  | nil => exact absurd rfl h
  | cons y r => rfl

theorem goJoin_flatten (l : List Str) : goJoin [] l = l.flatten := by
  induction l with
  | nil => rfl
  | cons x r ih =>
    cases r with
    | nil => simp [goJoin]
    | cons y t =>
      rw [goJoin_cons _ _ _ (by simp), ih]
      simp

theorem splitSepAux_skip (sep : Str) :
    ∀ (s acc : Str) (k : Nat), splitSepAux sep s acc k = splitSepAux sep (s.drop k) acc 0 := by
  intro s
  induction s with
  | nil => intro acc k; simp [splitSepAux]
  | cons c rest ih =>
    intro acc k
    cases k with
    | zero => simp
    | succ k => rw [List.drop_succ_cons, ← ih]; rfl

theorem splitSepAux_ne_nil (sep : Str) :
    ∀ (s acc : Str) (k : Nat), splitSepAux sep s acc k ≠ [] := by
  intro s
  induction s with
  | nil => intro acc k; simp [splitSepAux]
  | cons c rest ih =>
    intro acc k
    cases k with
    | succ k => exact ih acc k
    | zero =>
      rw [splitSepAux]
      split
      · simp
      · exact ih (c :: acc) 0

theorem goJoin_splitSepAux (sep : Str) (hsep : sep ≠ []) :
    ∀ (n : Nat) (s acc : Str), s.length ≤ n →
      goJoin sep (splitSepAux sep s acc 0) = acc.reverse ++ s := by
  intro n
  induction n with
  | zero =>
    intro s acc hs
    obtain rfl : s = [] := List.eq_nil_of_length_eq_zero (Nat.le_zero.mp hs)
    simp [splitSepAux, goJoin]
  | succ n ih =>
    intro s acc hs
    cases s with
    | nil => simp [splitSepAux, goJoin]
    | cons c rest =>
      have hplen : 1 ≤ sep.length := by
        cases sep with
        | nil => exact absurd rfl hsep
        | cons a as => simp
      rw [splitSepAux]
      show goJoin sep
        (if sep.isPrefixOf (c :: rest) = true then
          acc.reverse :: splitSepAux sep rest [] (sep.length - 1)
        else splitSepAux sep rest (c :: acc) 0) = acc.reverse ++ (c :: rest)
      by_cases hp : sep.isPrefixOf (c :: rest) = true
      · rw [if_pos hp, splitSepAux_skip]
        rw [goJoin_cons _ _ _ (splitSepAux_ne_nil sep _ [] 0)]
        rw [ih (rest.drop (sep.length - 1)) []
          (by simp only [List.length_drop]; simp only [List.length_cons] at hs; omega)]
        have hdec := prefix_decomp hp
        have hdrop : (c :: rest).drop sep.length = rest.drop (sep.length - 1) := by
          obtain ⟨m, hm⟩ : ∃ m, sep.length = m + 1 := ⟨sep.length - 1, by omega⟩
          rw [hm, List.drop_succ_cons]
          simp
        rw [hdrop] at hdec
        simp only [List.reverse_nil, List.nil_append]
        conv_rhs => rw [hdec]
        simp [List.append_assoc]
      · rw [if_neg hp]
        rw [ih rest (c :: acc) (by simp only [List.length_cons] at hs; omega)]
        simp [List.reverse_cons, List.append_assoc]

theorem flatten_map_singleton (s : Str) : (s.map (fun c => [c])).flatten = s := by
  induction s with
  | nil => rfl
  | cons c rest ih => simp [ih]

theorem goSplit_join (sep s : Str) : goJoin sep (goSplit sep s) = s := by
  rw [goSplit]
  by_cases he : sep.isEmpty = true
  · rw [if_pos he]
    obtain rfl : sep = [] := List.isEmpty_iff.mp he
    rw [goJoin_flatten, flatten_map_singleton]
  · rw [if_neg he]
    have := goJoin_splitSepAux sep (fun hn => by simp [hn] at he) s.length s [] le_rfl
    simpa using this

theorem findAllOccAux_skip (pat : Str) :
    ∀ (s : Str) (i k : Nat), findAllOccAux pat s i k = findAllOccAux pat (s.drop k) (i + k) 0 := by
  intro s
  induction s with
  | nil => intro i k; simp [findAllOccAux]
  | cons c rest ih =>
    intro i k
    cases k with
    | zero => simp
    | succ k =>
      rw [List.drop_succ_cons]
      show findAllOccAux pat rest (i + 1) k = findAllOccAux pat (rest.drop k) (i + (k + 1)) 0
      rw [ih (i + 1) k]
      congr 1
      omega

theorem matchChain_mono {text pat : Str} {ms : List (Nat × Nat)} {i j : Nat}
    (h : MatchChain text pat j ms) (hij : i ≤ j) : MatchChain text pat i ms := by
  cases ms with
  | nil => trivial
  | cons m t =>
    obtain ⟨h1, h2⟩ := h
    exact ⟨le_trans hij h1, h2⟩

theorem matchChain_findAllOcc (pat text : Str) :
    ∀ (n : Nat) (s : Str) (i : Nat), s.length ≤ n → text.drop i = s →
      MatchChain text pat i (findAllOcc pat s i) := by
  intro n
  induction n with
  | zero =>
    intro s i hs _
    obtain rfl : s = [] := List.eq_nil_of_length_eq_zero (Nat.le_zero.mp hs)
    trivial
  | succ n ih =>
    intro s i hs htext
    cases s with
    | nil => trivial
    | cons c rest =>
      rw [findAllOcc, findAllOccAux]
      show MatchChain text pat i
        (if ¬pat.isEmpty = true ∧ pat.isPrefixOf (c :: rest) = true then
          (i, i + pat.length) :: findAllOccAux pat rest (i + 1) (pat.length - 1)
        else findAllOccAux pat rest (i + 1) 0)
      have hrest : text.drop (i + 1) = rest := by
        rw [← List.drop_drop, htext, List.drop_one, List.tail_cons]
      by_cases hc : ¬pat.isEmpty = true ∧ pat.isPrefixOf (c :: rest) = true
      · rw [if_pos hc]
        obtain ⟨hne, hpre⟩ := hc
        have hplen : 1 ≤ pat.length := by
          cases pat with
          | nil => simp at hne
          | cons a as => simp
        have hlensuffix : (text.drop i).length = text.length - i := List.length_drop i text
        have hlencons : (text.drop i).length = rest.length + 1 := by rw [htext]; rfl
        have hi : i < text.length := by omega
        have hpatle : pat.length ≤ rest.length + 1 := by
          have := prefix_length_le hpre
          simpa using this
        have hskip : findAllOccAux pat rest (i + 1) (pat.length - 1) =
            findAllOcc pat (rest.drop (pat.length - 1)) (i + pat.length) := by
          rw [findAllOccAux_skip pat rest (i + 1) (pat.length - 1), findAllOcc]
          congr 1
          omega
        rw [hskip]
        refine ⟨le_refl i, rfl, by omega, ?_, ?_⟩
        · rw [sliceL]
          have : i + pat.length - i = pat.length := by omega
          rw [this, htext]
          conv_lhs => rw [prefix_decomp hpre]
          exact List.take_left pat _
        · refine ih (rest.drop (pat.length - 1)) (i + pat.length)
            (by simp only [List.length_drop]; simp only [List.length_cons] at hs; omega) ?_
          rw [← List.drop_drop, htext]
          obtain ⟨m, hm⟩ : ∃ m, pat.length = m + 1 := ⟨pat.length - 1, by omega⟩
          rw [hm, List.drop_succ_cons]
          simp
      · rw [if_neg hc]
        have := ih rest (i + 1) (by simp only [List.length_cons] at hs; omega) hrest
        rw [findAllOcc] at this
        exact matchChain_mono this (Nat.le_succ i)

theorem sliceL_append_drop {text : Str} {a b : Nat} (hab : a ≤ b) :
    sliceL text a b ++ text.drop b = text.drop a := by
  rw [sliceL]
  have : text.drop b = (text.drop a).drop (b - a) := by
    rw [List.drop_drop]
    congr 1
    omega
  rw [this, List.take_append_drop]

theorem preserveParts_flatten (text pat : Str) :
    ∀ (ms : List (Nat × Nat)) (lastIdx : Nat),
      MatchChain text pat lastIdx ms → lastIdx ≤ text.length →
      (preserveParts text lastIdx ms).flatten = text.drop lastIdx := by
  intro ms
  induction ms with
  | nil =>
    intro lastIdx _ hlast
    rw [preserveParts]
    by_cases hl : lastIdx < text.length
    · rw [if_pos hl]; simp
    · rw [if_neg hl]
      have : text.drop lastIdx = [] := List.drop_eq_nil_iff.mpr (by omega)
      simp [this]
  | cons m t ih =>
    intro lastIdx hch hlast
    obtain ⟨a, b⟩ := m
    obtain ⟨h1, h2, h3, h4, h5⟩ := hch
    have hab : a ≤ b := by omega
    rw [preserveParts]
    rw [List.flatten_append, List.flatten_cons]
    rw [ih b h5 h3]
    rw [sliceL_append_drop hab]
    by_cases hgap : a > lastIdx
    · rw [if_pos hgap]
      simp only [List.flatten_cons, List.flatten_nil, List.append_nil]
      rw [sliceL_append_drop h1]
    · rw [if_neg hgap]
      have : a = lastIdx := by omega
      simp [this]

theorem lookbehindParts_ne_nil (text p : Str) (lastIdx : Nat) (ms : List (Nat × Nat)) :
    lookbehindParts text p lastIdx ms ≠ [] := by
  cases ms with
  | nil => simp [lookbehindParts]
  | cons m t => obtain ⟨a, b⟩ := m; simp [lookbehindParts]

theorem lookbehindParts_join (text p sepw : Str) :
    ∀ (ms : List (Nat × Nat)) (lastIdx : Nat),
      MatchChain text (p ++ sepw) lastIdx ms →
      goJoin sepw (lookbehindParts text p lastIdx ms) = text.drop lastIdx := by
  intro ms
  induction ms with
  | nil => intro lastIdx _; rfl
  | cons m t ih =>
    intro lastIdx hch
    obtain ⟨a, b⟩ := m
    obtain ⟨h1, h2, h3, h4, h5⟩ := hch
    rw [lookbehindParts]
    rw [goJoin_cons _ _ _ (lookbehindParts_ne_nil text p b t)]
    rw [ih b h5]
    have hab : a ≤ b := by
      have : 0 ≤ (p ++ sepw).length := Nat.zero_le _
      omega
    calc sliceL text lastIdx a ++ p ++ sepw ++ text.drop b
        = sliceL text lastIdx a ++ (p ++ sepw) ++ text.drop b := by
          simp [List.append_assoc]
      _ = sliceL text lastIdx a ++ sliceL text a b ++ text.drop b := by rw [h4]
      _ = sliceL text lastIdx a ++ (sliceL text a b ++ text.drop b) := by
          simp [List.append_assoc]
      _ = sliceL text lastIdx a ++ text.drop a := by rw [sliceL_append_drop hab]
      _ = text.drop lastIdx := sliceL_append_drop h1

/-! ## Claim theorems -/

/-- C7: on the fragment run `["hello","world","test","again"]` with sizes
`[5,5,4,5]`, positional indices `[0,1,2,3]`, delimiter `" "` (of token size 1
under the per-rune counter), chunk size 11 and overlap 5, `mergeSplits`
returns exactly `["hello world", "world test", "test again"]`. -/
theorem c7_merge_overlap_scenario :
    mergeSplits cfgMergeDemo [str "hello", str "world", str "test", str "again"]
      [5, 5, 4, 5] [0, 1, 2, 3] (str " ") 11 =
      some [str "hello world", str "world test", str "test again"] := rfl

/-- C2 (code bug): in the overlap-eviction loop of `mergeSplits` the lookup
`splitSizes[splitIds[0]]` uses the original positional indices to index the
positionally-indexed sizes array; when the good run does not start at index 0
(here indices `[2,3]` with a 2-element sizes array) the access is out of
bounds and the Go code panics, modelled by `none`. -/
theorem c2_eviction_index_out_of_range :
    mergeSplits cfgOverlap2 [str "abc", str "def"] [3, 3] [2, 3] (str " ") 5 = none := rfl

/-- C1 (code bug): on the valid configuration `cfgOverlap2` (chunk size 5,
overlap 2, per-rune counter) and the non-empty input
`"abcdefgh abcdefgh abc def"`, `Split` panics (index out of range in the
eviction loop of `mergeSplits`), so no chunk list is produced at all and the
reconstruction invariant cannot hold. -/
theorem c1_split_panics_on_valid_input :
    Split cfgOverlap2 (str "abcdefgh abcdefgh abc def") = .error .panicked := rfl

/-- C3 (code bug): `NewTextSplitter(10, 5)` with integer overlap 5 succeeds
but stores overlap 0, not 5: the `else if overlapInt, ok := ...` in the
source shadows the outer `overlapInt`, which is never assigned in the integer
branch. -/
theorem c3_int_overlap_resolves_to_zero :
    newTextSplitterInt 10 5 = .ok ⟨10, 0⟩ ∧ newTextSplitterInt 10 5 ≠ .ok ⟨10, 5⟩ := by
  refine ⟨rfl, fun h => ?_⟩
  rw [newTextSplitterInt] at h
  simp only [show ¬((5 : Int) < 0 ∨ (5 : Int) > 10) by omega, if_neg, not_false_iff,
    reduceCtorEq, if_false] at h
  cases h

/-- C5 (code bug): under the validly constructed splitter `cfgPreserve`
(chunk size 2, overlap 0, per-rune counter, literal preserve pattern
`"abcd"`) every single character is within budget (1 < 2), yet
`split("abcd")` never terminates: the preserve-pattern branch returns the
whole span as its only fragment, the fragment is over budget and is recursed
into unchanged, for any recursion-depth fuel. -/
theorem c5_preserved_overbudget_match_diverges (n : Nat) :
    splitFuel cfgPreserve n (str "abcd") 2 = .error .fuelOut := by
  induction n with
  | zero => rfl
  | succ n ih => rw [splitFuel_cfgPreserve_step, ih]

/-- C6: construction fails with a validation error exactly when the overlap
configuration is invalid: integer overlap outside `[0, chunkSize]`, or
fractional overlap outside `[0, 1]`; on error no splitter value is returned
(the result is `Except.error`), and every in-range overlap constructs
successfully. -/
theorem c6_overlap_validation_iff (cs k : Int) (q : ℚ) :
    ((∃ s, newTextSplitterInt cs k = .ok s) ↔ (0 ≤ k ∧ k ≤ cs)) ∧
    ((∃ s, newTextSplitterFloat cs q = .ok s) ↔ (0 ≤ q ∧ q ≤ 1)) := by
  constructor
  · constructor
    · rintro ⟨s, hs⟩
      rw [newTextSplitterInt] at hs
      by_contra hk
      rw [if_pos (by omega)] at hs
      exact absurd hs (by simp)
    · intro hk
      exact ⟨⟨cs, 0⟩, by rw [newTextSplitterInt, if_neg (by omega)]⟩
  · constructor
    · rintro ⟨s, hs⟩
      rw [newTextSplitterFloat] at hs
      by_contra hq
      rw [if_pos (by by_contra hno; push_neg at hno; exact hq hno)] at hs
      exact absurd hs (by simp)
    · rintro ⟨h0, h1⟩
      exact ⟨_, by rw [newTextSplitterFloat, if_neg (by push_neg; exact ⟨h0, h1⟩)]⟩

/-- C4 (counterexample): the span `"a. b"` contains the half-width terminator
`"."` and no newline, carriage return or tab, and no preserve pattern is
configured — yet the selector does not split on `"."` with whitespace-class
false: it returns the whitespace delimiter `" "` with whitespace-class true
(the lookbehind refinement), because half-width terminators are only tried
after whitespace runs. -/
theorem c4_counterexample_halfwidth_loses_to_whitespace :
    containsSub (str ".") (str "a. b") = true ∧
    containsSub (str "\n") (str "a. b") = false ∧
    containsSub (str "\r") (str "a. b") = false ∧
    containsSub (str "\t") (str "a. b") = false ∧
    innerSplit [] (str "a. b") = (str " ", true, [str "a.", str "b"]) :=
  ⟨rfl, rfl, rfl, rfl, rfl⟩

/-- C4 (amended): for a span with no newline, carriage return or tab and no
preserve-pattern match, if the span contains a full-width terminator
（`。？！，；、：－`）then `innerSplit` splits on every occurrence of the first
such terminator in priority order and reports whitespace-class false — even
when the span also contains whitespace. Half-width terminators do not have
this priority: they are tried only after whitespace runs. -/
theorem c4_fullwidth_terminator_priority (patterns : List Str) (text t : Str)
    (hnl : containsSub (str "\n") text = false)
    (hcr : containsSub (str "\r") text = false)
    (htab : containsSub (str "\t") text = false)
    (hpat : ∀ p ∈ patterns, findAllOcc p text 0 = [])
    (hfw : firstContained fullWidthNonWhitespaceSemanticSpliters text = some t) :
    innerSplit patterns text = (t, false, goSplit t text) := by
  have hfind : patterns.find? (fun p => !(findAllOcc p text 0).isEmpty) = none :=
    List.find?_eq_none.mpr (fun p hp => by simp [hpat p hp])
  rw [innerSplit, hnl, hcr, htab, hfind, hfw]
  simp

/-- Witness for the amended C4 at the concrete span `"a。b c"` (which also
contains whitespace): the full-width `。` wins with whitespace-class false. -/
theorem c4_fullwidth_terminator_priority_witness :
    innerSplit [] (str "a。b c") = (str "。", false, goSplit (str "。") (str "a。b c")) :=
  c4_fullwidth_terminator_priority [] (str "a。b c") (str "。") rfl rfl rfl
    (fun p hp => absurd hp (List.not_mem_nil p)) rfl

/-- C8: for every splitter configuration, `Split` on the empty input returns
the empty chunk list: `innerSplit` of the empty string reaches the
character-level fallback, `strings.Split("", "")` is the empty fragment list,
and the loop of `split` emits nothing. -/
theorem c8_empty_input_empty_output (cfg : Cfg) : Split cfg [] = .ok [] := by
  show splitFuel cfg (0 + 1) [] cfg.chunkSize = .ok []
  rw [splitFuel, innerSplit_nil]
  rfl

/-- C9: for every text and every preserve-pattern set, joining the fragments
returned by `innerSplit` with the returned delimiter reconstructs the input
exactly — in the newline-run, tab-run, preserve-pattern (empty delimiter,
concatenation), full-width terminator, whitespace-run, lookbehind-refinement
(terminator kept on the left fragment, only the whitespace delimiter
dropped), half-width terminator, and character-fallback branches. -/
theorem c9_innerSplit_rejoin (patterns : List Str) (text : Str) :
    goJoin (innerSplit patterns text).1 (innerSplit patterns text).2.2 = text := by
  rw [innerSplit]
  repeat' split
  all_goals try exact goSplit_join _ _
  · rename_i p hfind
    show goJoin [] (preserveParts text 0 (findAllOcc p text 0)) = text
    rw [goJoin_flatten]
    have hch := matchChain_findAllOcc p text text.length text 0 le_rfl (List.drop_zero text)
    rw [preserveParts_flatten text p (findAllOcc p text 0) 0 hch (Nat.zero_le _),
      List.drop_zero]
  · rename_i pw hfp
    show goJoin [pw.2] (LookbehindSplit text pw.1 [pw.2]) = text
    rw [LookbehindSplit]
    have hch := matchChain_findAllOcc (pw.1 ++ [pw.2]) text text.length text 0
      le_rfl (List.drop_zero text)
    rw [lookbehindParts_join text pw.1 [pw.2] _ 0 hch, List.drop_zero]

theorem emitNonEmpty_nonempty {splitter : Str} {merges toMerge : List Str}
    (h : ∀ m ∈ merges, m ≠ []) :
    ∀ m ∈ emitNonEmpty splitter merges toMerge, m ≠ [] := by
  intro m hm
  rw [emitNonEmpty] at hm
  by_cases he : (goJoin splitter toMerge).isEmpty = true
  · rw [if_pos he] at hm
    exact h m hm
  · rw [if_neg he] at hm
    rcases List.mem_append.mp hm with h1 | h2
    · exact h m h1
    · obtain rfl : m = goJoin splitter toMerge := List.mem_singleton.mp h2
      exact fun hnil => he (by simp [hnil])

theorem overflowStep_nonempty {sizes : List Int} {splitter : Str}
    {spSize cs ov : Int} {merges toMerge : List Str} {ids : List Nat} {size l : Int}
    {st : List Str × List Str × List Nat × Int}
    (h : ∀ m ∈ merges, m ≠ [])
    (hst : overflowStep sizes splitter spSize cs ov merges toMerge ids size l = some st) :
    ∀ m ∈ st.1, m ≠ [] := by
  rw [overflowStep] at hst
  split at hst
  · split at hst
    · split at hst
      · exact absurd hst (by simp)
      · cases hst
        exact emitNonEmpty_nonempty h
    · cases hst
      exact emitNonEmpty_nonempty h
  · cases hst
    exact h

theorem mergeGo_nonempty {sizes : List Int} {splitter : Str} {spSize cs ov : Int} :
    ∀ (l : List Str) (i : Nat) (merges toMerge : List Str) (ids : List Nat)
      (size : Int) (ms : List Str),
      (∀ m ∈ merges, m ≠ []) →
      mergeGo sizes splitter spSize cs ov l i merges toMerge ids size = some ms →
      ∀ m ∈ ms, m ≠ [] := by
  intro l
  induction l with
  | nil =>
    intro i merges toMerge ids size ms hinv hms
    rw [mergeGo] at hms
    split at hms
    · injection hms with h2; subst h2; exact hinv
    · injection hms with h2; subst h2; exact emitNonEmpty_nonempty hinv
  | cons sp rest ih =>
    intro i merges toMerge ids size ms hinv hms
    rw [mergeGo] at hms
    split at hms
    · exact absurd hms (by simp)
    · rename_i l hl
      split at hms
      · exact absurd hms (by simp)
      · rename_i merges2 tm2 ids2 size2 hst
        exact ih (i + 1) merges2 (tm2 ++ [sp]) ids2 _ ms
          (overflowStep_nonempty hinv hst) hms

theorem mergeSplits_nonempty {cfg : Cfg} {splits : List Str} {sizes : List Int}
    {ids : List Nat} {splitter : Str} {cs : Int} {ms : List Str}
    (hms : mergeSplits cfg splits sizes ids splitter cs = some ms) :
    ∀ m ∈ ms, m ≠ [] :=
  mergeGo_nonempty splits 0 [] [] ids 0 ms (by simp) hms

theorem flushGood_nonempty {mergeFn : List Str → List Int → List Nat → Option (List Str)}
    {rets good : List Str} {goodSizes : List Int} {goodIds : List Nat} {r : List Str}
    (hrets : ∀ m ∈ rets, m ≠ [])
    (hmf : ∀ g gs gi ms, mergeFn g gs gi = some ms → ∀ m ∈ ms, m ≠ [])
    (h : flushGood mergeFn rets good goodSizes goodIds = .ok r) :
    ∀ m ∈ r, m ≠ [] := by
  rw [flushGood] at h
  split at h
  · injection h with h2; subst h2; exact hrets
  · split at h
    · exact absurd h (by simp)
    · rename_i ms hms
      injection h with h2
      subst h2
      intro m hm
      rcases List.mem_append.mp hm with h1 | h2
      · exact hrets m h1
      · exact hmf _ _ _ _ hms m h2

theorem splitLoop_nonempty {count : Str → Int} {cs : Int}
    {mergeFn : List Str → List Int → List Nat → Option (List Str)}
    {recFn : Str → Except SErr (List Str)}
    (hmf : ∀ g gs gi ms, mergeFn g gs gi = some ms → ∀ m ∈ ms, m ≠ [])
    (hrec : ∀ t sub, recFn t = .ok sub → ∀ m ∈ sub, m ≠ []) :
    ∀ (l : List Str) (i : Nat) (rets good : List Str) (goodSizes : List Int)
      (goodIds : List Nat) (r : List Str),
      (∀ m ∈ rets, m ≠ []) →
      splitLoop count cs mergeFn recFn l i rets good goodSizes goodIds = .ok r →
      ∀ m ∈ r, m ≠ [] := by
  intro l
  induction l with
  | nil =>
    intro i rets good goodSizes goodIds r hrets h
    exact flushGood_nonempty hrets hmf h
  | cons sp rest ih =>
    intro i rets good goodSizes goodIds r hrets h
    rw [splitLoop] at h
    split at h
    · exact ih (i + 1) rets (good ++ [sp]) _ _ r hrets h
    · split at h
      · exact absurd h (by simp)
      · rename_i rets1 hflush
        split at h
        · exact absurd h (by simp)
        · rename_i sub hsub
          refine ih (i + 1) (rets1 ++ sub) [] [] [] r ?_ h
          intro m hm
          rcases List.mem_append.mp hm with h1 | h2
          · exact flushGood_nonempty hrets hmf hflush m h1
          · exact hrec sp sub hsub m h2

theorem splitFuel_nonempty (cfg : Cfg) :
    ∀ (fuel : Nat) (text : Str) (cs : Int) (r : List Str),
      splitFuel cfg fuel text cs = .ok r → ∀ m ∈ r, m ≠ [] := by
  intro fuel
  induction fuel with
  | zero => intro text cs r h; exact absurd h (by simp [splitFuel])
  | succ n ih =>
    intro text cs r h
    rw [splitFuel] at h
    exact splitLoop_nonempty
      (fun g gs gi ms hms => mergeSplits_nonempty hms)
      (fun t sub hsub => ih t cs sub hsub)
      (innerSplit cfg.patterns text).2.2 0 [] [] [] [] r (by simp) h

/-- C10: every chunk returned by a successful run of `Split` is a non-empty
string — both emission points of `mergeSplits` skip the chunk when the joined
accumulator is empty, and `split` only emits merger outputs. -/
theorem c10_chunks_nonempty (cfg : Cfg) (text : Str) (r : List Str)
    (h : Split cfg text = .ok r) : ∀ ch ∈ r, ch ≠ [] :=
  splitFuel_nonempty cfg (text.length + 1) text cfg.chunkSize r h

/-- Witness for C10 at a concrete run: `Split` of `"ab"` under `cfgPlain`
returns `["ab"]`, whose only chunk is non-empty. -/
theorem c10_chunks_nonempty_witness : str "ab" ≠ [] :=
  c10_chunks_nonempty cfgPlain (str "ab") [str "ab"] rfl (str "ab") (by simp)

end Semchunk
